import Mathlib

/-!
Verification development for `scripts/postgres_to_sqlite.py`, a best-effort
PostgreSQL-dump to SQLite converter.  The script is a linear text pipeline:
an ordered list of case-insensitive regex substitutions applied over the
whole content, followed by a line filter (strip each line, drop empty and
`--`-prefixed lines, keep lines whose upper-cased form starts with
CREATE TABLE / INSERT INTO / CREATE INDEX), joined with newlines.

Text is modelled as `List Char`.  The regex patterns used by the script fall
into a few fixed shapes (case-insensitive literals, a lazy same-line gap
between two literals, a digit run), so
the engine below implements exactly those shapes with Python `re.sub`
semantics: scan left to right, at each position try the pattern, on a match
emit the replacement and continue after the consumed text.  Case-insensitive
comparison maps both sides through `Char.toUpper` (ASCII), which agrees with
Python for the ASCII text involved; `.` never matches a newline (DOTALL is
not set); `re.MULTILINE` is irrelevant because no pattern uses anchors.
Python `str.strip` is modelled over its ASCII whitespace set.
-/

abbrev Str := List Char

/-- ASCII whitespace stripped by Python `str.strip`. -/
def isWS (c : Char) : Bool :=
  c = ' ' || c = '\t' || c = '\n' || c = '\r' || c = '\x0b' || c = '\x0c'

/-- Case-insensitive literal match at the front: if `pat` (compared through
`Char.toUpper` on both sides) is a prefix of `s`, return the rest of `s`. -/
def ciDrop : Str → Str → Option Str
  | [], s => some s
  | _ :: _, [] => none
  | p :: ps, c :: cs => if p.toUpper = c.toUpper then ciDrop ps cs else none

/-- Lazy gap `.*?` up to `pat` within the current line: returns the shortest
run of non-newline characters (the gap, in original case) followed by a match
of `pat`, and the remainder after `pat`. -/
def scanTo (pat : Str) : Str → Option (Str × Str)
  | [] => (ciDrop pat []).map (fun r => ([], r))
  | c :: cs =>
    match ciDrop pat (c :: cs) with
    | some r => some ([], r)
    | none =>
      if c = '\n' then none
      else (scanTo pat cs).map (fun g => (c :: g.1, g.2))

/-- Lazy gap up to `pat` followed by a continuation that may itself fail,
with Python-style backtracking: if `pat` matches here but the continuation
fails, the gap keeps growing one character at a time (never across a
newline).  Used for `CONSTRAINT.*?CHECK.*?\),?`. -/
def scanToThen (pat : Str) (k : Str → Option Str) : Str → Option Str
  | [] => (ciDrop pat []).bind k
  | c :: cs =>
    match ciDrop pat (c :: cs) with
    | some r =>
      match k r with
      | some out => some out
      | none => if c = '\n' then none else scanToThen pat k cs
    | none => if c = '\n' then none else scanToThen pat k cs

/-- A substitution rule: at the current position, either no match, or a match
producing replacement text together with the input remaining after the
matched text. -/
abbrev Rule := Str → Option (Str × Str)

/-- Case-insensitive literal pattern with a constant replacement. -/
def litRule (pat repl : Str) : Rule := fun s => (ciDrop pat s).map (fun r => (repl, r))

/-- `r'--.*\n' -> ''`: from `--` through the next newline inclusive. -/
def ruleComment : Rule := fun s =>
  (ciDrop "--".data s).bind fun r => (scanTo "\n".data r).map fun g => ([], g.2)

/-- `r'SET .*?;' -> ''`. -/
def ruleSet : Rule := fun s =>
  (ciDrop "SET ".data s).bind fun r => (scanTo ";".data r).map fun g => ([], g.2)

/-- `r'SELECT pg_catalog\..*?;' -> ''`. -/
def rulePgCatalog : Rule := fun s =>
  (ciDrop "SELECT pg_catalog.".data s).bind fun r =>
    (scanTo ";".data r).map fun g => ([], g.2)

/-- `r'CREATE EXTENSION.*?;' -> ''`. -/
def ruleExtension : Rule := fun s =>
  (ciDrop "CREATE EXTENSION".data s).bind fun r =>
    (scanTo ";".data r).map fun g => ([], g.2)

/-- `r'COMMENT ON.*?;' -> ''`. -/
def ruleCommentOn : Rule := fun s =>
  (ciDrop "COMMENT ON".data s).bind fun r =>
    (scanTo ";".data r).map fun g => ([], g.2)

/-- `r'VARCHAR\(\d+\)' -> 'TEXT'`: literal `VARCHAR(`, one or more ASCII
digits, then `)`. -/
def ruleVarchar : Rule := fun s =>
  (ciDrop "VARCHAR(".data s).bind fun r =>
    match r with
    | [] => none
    | c :: cs =>
      if c.isDigit then
        (ciDrop ")".data ((c :: cs).dropWhile Char.isDigit)).map fun rest =>
          ("TEXT".data, rest)
      else none

/-- `r'public\.' -> ''`: the dot is backslash-escaped in the source, so the
whole pattern is the case-insensitive literal `public.`. -/
def rulePublic : Rule := litRule "public.".data "".data

/-- Greedy optional comma `,?`. -/
def dropComma : Str → Str
  | ',' :: t => t
  | t => t

/-- `r'CONSTRAINT.*?CHECK.*?\),?' -> ''`. -/
def ruleConstraint : Rule := fun s =>
  (ciDrop "CONSTRAINT".data s).bind fun r =>
    (scanToThen "CHECK".data
      (fun r2 => (scanTo ")".data r2).map fun g => dropComma g.2) r).map
      fun rest => ([], rest)

/-- `r'INSERT INTO (.*?) VALUES' -> r'INSERT INTO \1 VALUES'`: re-emits the
captured table name; the literal parts of the replacement are upper-case even
when the matched text was not. -/
def ruleInsert : Rule := fun s =>
  (ciDrop "INSERT INTO ".data s).bind fun r =>
    (scanTo " VALUES".data r).map fun g =>
      ("INSERT INTO ".data ++ g.1 ++ " VALUES".data, g.2)

def serialPat : Str := "SERIAL".data

def bigserialPat : Str := "BIGSERIAL".data

/-- The bare `SERIAL -> INTEGER` rule (list position 7 in the source). -/
def serialRule : Rule := litRule serialPat "INTEGER".data

/-- The `BIGSERIAL -> INTEGER` rule (list position 8 in the source). -/
def bigserialRule : Rule := litRule bigserialPat "INTEGER".data

/-- `re.sub` driver, fuelled for structural recursion: scan left to right,
replace each leftmost non-overlapping match, never rescanning replacement
text.  Every rule of this script consumes at least one character on a match,
so fuel `s.length` is always enough (the guard is never taken for them). -/
def subFuel (rule : Rule) : Nat → Str → Str
  | _, [] => []
  | 0, s => s
  | Nat.succ n, c :: cs =>
    match rule (c :: cs) with
    | some (repl, rest) =>
      if rest.length ≤ cs.length then repl ++ subFuel rule n rest
      else c :: subFuel rule n cs
    | none => c :: subFuel rule n cs

/-- One `re.sub(pattern, replacement, content, flags=IGNORECASE|MULTILINE)`. -/
def reSub (rule : Rule) (s : Str) : Str := subFuel rule s.length s

/-- Does `pat` occur case-insensitively as a substring, i.e. does `ciDrop
pat` succeed at some position? -/
def occursCI (pat : Str) : Str → Bool
  | [] => (ciDrop pat []).isSome
  | c :: cs => (ciDrop pat (c :: cs)).isSome || occursCI pat cs

/-- Does `rule` match at some position of the string? -/
def occursR (rule : Rule) : Str → Bool
  | [] => (rule []).isSome
  | c :: cs => (rule (c :: cs)).isSome || occursR rule cs

/-- The ordered rule table `conversions` of the source (lines 15-43). -/
def conversions : List Rule := [
  ruleComment, ruleSet, rulePgCatalog, ruleExtension, ruleCommentOn,
  litRule "SERIAL PRIMARY KEY".data "INTEGER PRIMARY KEY AUTOINCREMENT".data,
  serialRule,
  bigserialRule,
  litRule "TEXT".data "TEXT".data,
  ruleVarchar,
  litRule "TIMESTAMP WITH TIME ZONE".data "TEXT".data,
  litRule "TIMESTAMP WITHOUT TIME ZONE".data "TEXT".data,
  litRule "TIMESTAMP".data "TEXT".data,
  litRule "BOOLEAN".data "INTEGER".data,
  litRule "TRUE".data "1".data,
  litRule "FALSE".data "0".data,
  litRule "ONLY ".data "".data,
  rulePublic,
  ruleConstraint,
  ruleInsert]

/-- The substitution loop (source lines 45-46): every rule applied in listed
order, each over the entire current content. -/
def applyConversions (content : Str) : Str :=
  conversions.foldl (fun acc r => reSub r acc) content

/-- Python `content.split('\n')`. -/
def splitOnNl : Str → List Str
  | [] => [[]]
  | c :: cs =>
    if c = '\n' then [] :: splitOnNl cs
    else
      match splitOnNl cs with
      | [] => [[c]]
      | m :: ms => (c :: m) :: ms

/-- Python `'\n'.join(lines)`. -/
def joinNl : List Str → Str
  | [] => []
  | [l] => l
  | l :: l2 :: ls => l ++ '\n' :: joinNl (l2 :: ls)

/-- Python `line.strip()` over the ASCII whitespace set. -/
def stripL (s : Str) : Str := ((s.dropWhile isWS).reverse.dropWhile isWS).reverse

/-- Boolean `startswith`. -/
def startsWithL : Str → Str → Bool
  | [], _ => true
  | _ :: _, [] => false
  | p :: ps, c :: cs => p == c && startsWithL ps cs

/-- The allow-list of statement keywords (source line 58). -/
def allowedCmds : List Str := ["CREATE TABLE".data, "INSERT INTO".data, "CREATE INDEX".data]

/-- `any(line.upper().startswith(cmd) for cmd in allowedCmds)`. -/
def isAllowed (t : Str) : Bool :=
  allowedCmds.any fun cmd => startsWithL cmd (t.map Char.toUpper)

/-- The body of the filtering loop (source lines 52-59) for one raw line:
strip, skip if empty or comment-prefixed, keep if allow-listed. -/
def keepLine (l : Str) : Option Str :=
  let t := stripL l
  if t = [] then none
  else if startsWithL "--".data t then none
  else if isAllowed t then some t
  else none

/-- `sqlite_lines` of the source: the retained, stripped lines. -/
def sqliteLines (content : Str) : List Str :=
  ((splitOnNl (applyConversions content)).filterMap keepLine)

/-- The allow-list filtering step alone (split, filter, join), as a
string-to-string transformation. -/
def filterStep (s : Str) : Str := joinNl ((splitOnNl s).filterMap keepLine)

/-- The whole content transformation performed by
`convert_postgres_to_sqlite` between reading the input and writing the
output: substitutions, then the line filter, joined with newlines. -/
def convertContent (content : Str) : Str := filterStep (applyConversions content)

/-- Observable outcome of one program run: process exit status, lines printed
to standard output, whether the input file was opened for reading, and the
content written to the output file (`none` when the output file was never
opened, hence neither created nor truncated). -/
structure RunResult where
  exitCode : Nat
  stdoutLines : List Str
  readInput : Bool
  writtenOutput : Option Str
deriving DecidableEq

def usageMsg : Str := "Usage: python3 postgres_to_sqlite.py <input.sql> <output.sql>".data

/-- Model of `convert_postgres_to_sqlite(input_file, output_file)` with the
file system made explicit: `input = none` models an unreadable input path and
`outOk = false` an unwritable output path.  The source prints the start
message (line 9) before opening the input (line 11), and opens the output
(line 61) only after the input is fully read and converted, so a failed read
leaves `writtenOutput = none`; an uncaught exception terminates the
interpreter with exit status 1. -/
def convertRun (input : Option Str) (outOk : Bool) (inFile outFile : Str) : RunResult :=
  match input with
  | none => ⟨1, ["Converting ".data ++ inFile ++ " to ".data ++ outFile], true, none⟩
  | some content =>
    if outOk then
      ⟨0, ["Converting ".data ++ inFile ++ " to ".data ++ outFile,
           "✅ Conversion complete: ".data ++ outFile],
        true, some (convertContent content)⟩
    else ⟨1, ["Converting ".data ++ inFile ++ " to ".data ++ outFile], true, none⟩

/-- Model of the `__main__` block (source lines 66-71).  `argv` is `sys.argv`
and includes the script name, so "exactly two positional arguments" is
`argv.length = 3`; otherwise the script prints the usage text to standard
output and exits with status 1 before touching any file. -/
def runMain (argv : List Str) (input : Option Str) (outOk : Bool) : RunResult :=
  if argv.length ≠ 3 then ⟨1, [usageMsg], false, none⟩
  else convertRun input outOk (argv.getD 1 []) (argv.getD 2 [])

/-- C4: if the input path cannot be read, the run terminates with a non-zero
status and the output file is neither created nor truncated (the input is
read before the output path is opened for writing). -/
theorem c4_missing_input_no_output : ∀ (argv : List Str) (outOk : Bool),
    (runMain argv none outOk).exitCode ≠ 0 ∧
    (runMain argv none outOk).writtenOutput = none := by
  intro argv outOk
  unfold runMain convertRun
  split <;> simp

/-- C7: invoked with a number of positional arguments other than exactly two,
the program prints the usage message to standard output and exits with status
1 without reading the input or writing the output; with exactly two arguments
and no I/O error it exits with status 0. -/
theorem c7_usage_and_success : ∀ (argv : List Str) (input : Option Str) (outOk : Bool),
    (argv.length ≠ 3 →
      runMain argv input outOk = ⟨1, [usageMsg], false, none⟩) ∧
    (argv.length = 3 → input ≠ none → outOk = true →
      (runMain argv input outOk).exitCode = 0) := by
  intro argv input outOk
  constructor
  · intro h
    rw [runMain, if_pos h]
  · intro h3 hin hok
    rw [runMain, if_neg (by simp [h3])]
    rcases input with _ | c
    · exact absurd rfl hin
    · subst hok
      simp [convertRun]

/-- Witness for C7 at concrete inputs: one argument triggers the usage exit,
three arguments with readable input and writable output exit 0. -/
theorem c7_witness :
    ((["p".data] : List Str).length ≠ 3 ∧
      runMain ["p".data] none true = ⟨1, [usageMsg], false, none⟩) ∧
    ((["p".data, "i".data, "o".data] : List Str).length = 3 ∧
      (runMain ["p".data, "i".data, "o".data] (some []) true).exitCode = 0) := by
  refine ⟨⟨by decide, (c7_usage_and_success ["p".data] none true).1 (by decide)⟩,
    ⟨rfl, (c7_usage_and_success ["p".data, "i".data, "o".data] (some []) true).2
      rfl (by simp) rfl⟩⟩

/-- C5: for the input `-- comment\nINSERT INTO t VALUES (1, TRUE);` the
conversion output is exactly the single line `INSERT INTO t VALUES (1, 1);`:
the comment including its newline is removed and TRUE is rewritten to 1. -/
theorem c5_comment_true_conversion :
    convertContent "-- comment\nINSERT INTO t VALUES (1, TRUE);".data
      = "INSERT INTO t VALUES (1, 1);".data := by decide

/-- C10: the substitution rules match bare substrings: in
`INSERT INTO t VALUES (COMMONLY TRUEX);` the `TRUE` embedded in the
identifier `TRUEX` is rewritten to `1` and the `ONLY ` embedded in
`COMMONLY ` is deleted, so the value text becomes `COMM1X`. -/
theorem c10_substring_rewrites :
    occursCI "TRUE".data "INSERT INTO t VALUES (COMMONLY TRUEX);".data = true ∧
    occursCI "ONLY ".data "INSERT INTO t VALUES (COMMONLY TRUEX);".data = true ∧
    convertContent "INSERT INTO t VALUES (COMMONLY TRUEX);".data
      = "INSERT INTO t VALUES (COMM1X);".data := by
  exact ⟨by decide, by decide, by decide⟩

/-- C2 counterexample: the claimed output line
`CREATE TABLE foo (id INTEGER PRIMARY KEY AUTOINCREMENT, name TEXT));` (two
closing parentheses) is not produced even for the input consisting of exactly
the quoted CREATE TABLE line, and the universal claim also fails because a
preceding line ending in a comment merges into the CREATE TABLE line and the
merged line is dropped by the allow-list filter (empty output). -/
theorem c2_counterexample :
    ("CREATE TABLE foo (id SERIAL PRIMARY KEY, name VARCHAR(50));".data
        ∈ splitOnNl "CREATE TABLE foo (id SERIAL PRIMARY KEY, name VARCHAR(50));".data) ∧
    ("CREATE TABLE foo (id INTEGER PRIMARY KEY AUTOINCREMENT, name TEXT));".data
        ∉ splitOnNl (convertContent
            "CREATE TABLE foo (id SERIAL PRIMARY KEY, name VARCHAR(50));".data)) ∧
    ("CREATE TABLE foo (id SERIAL PRIMARY KEY, name VARCHAR(50));".data
        ∈ splitOnNl "x -- c\nCREATE TABLE foo (id SERIAL PRIMARY KEY, name VARCHAR(50));".data) ∧
    convertContent "x -- c\nCREATE TABLE foo (id SERIAL PRIMARY KEY, name VARCHAR(50));".data
      = [] := by
  exact ⟨by decide, by decide, by decide, by decide⟩

/-- C2 amended: for the input consisting of exactly the line
`CREATE TABLE foo (id SERIAL PRIMARY KEY, name VARCHAR(50));` the output is
exactly `CREATE TABLE foo (id INTEGER PRIMARY KEY AUTOINCREMENT, name TEXT);`
(a single closing parenthesis before the semicolon: `VARCHAR(50)` is replaced
as a whole, parentheses included, by `TEXT`). -/
theorem c2_amended :
    convertContent "CREATE TABLE foo (id SERIAL PRIMARY KEY, name VARCHAR(50));".data
      = "CREATE TABLE foo (id INTEGER PRIMARY KEY AUTOINCREMENT, name TEXT);".data := by
  decide

theorem stripL_eq_rdropWhile (s : Str) :
    stripL s = List.rdropWhile isWS (s.dropWhile isWS) := by
  simp [stripL, List.rdropWhile]

theorem dropWhile_rdropWhile_eq_self (q : Char → Bool) (l : Str)
    (h : l.dropWhile q = l) :
    (List.rdropWhile q l).dropWhile q = List.rdropWhile q l := by
  rcases hx : List.rdropWhile q l with _ | ⟨c, t⟩
  · simp
  · obtain ⟨t2, ht2⟩ := List.rdropWhile_prefix q l
    rw [hx] at ht2
    have hl : l = c :: (t ++ t2) := by
      rw [← ht2]; simp
    have hq : ¬ q c = true := by
      intro hqc
      rw [hl, List.dropWhile_cons, if_pos hqc] at h
      have := congrArg List.length h
      have hle := (List.dropWhile_suffix (l := t ++ t2) q).sublist.length_le
      rw [List.length_cons] at this
      omega
    rw [List.dropWhile_cons, if_neg hq]

theorem stripL_stripL (s : Str) : stripL (stripL s) = stripL s := by
  rw [stripL_eq_rdropWhile s, stripL_eq_rdropWhile]
  rw [dropWhile_rdropWhile_eq_self isWS _ (List.dropWhile_idempotent isWS _)]
  exact List.rdropWhile_idempotent isWS _

theorem mem_of_mem_stripL {c : Char} {s : Str} (h : c ∈ stripL s) : c ∈ s := by
  rw [stripL_eq_rdropWhile] at h
  exact (List.dropWhile_suffix isWS).sublist.subset
    (( List.rdropWhile_prefix isWS _).sublist.subset h)

theorem splitOnNl_ne_nil : ∀ s : Str, splitOnNl s ≠ [] := by
  intro s
  cases s with
  | nil => simp [splitOnNl]
  | cons c cs =>
    rw [splitOnNl]
    by_cases h : c = '\n'
    · simp [h]
    · rw [if_neg h]
      rcases hm : splitOnNl cs with _ | ⟨m, ms⟩ <;> simp

theorem not_nl_of_mem_splitOnNl : ∀ (s : Str) (l : Str), l ∈ splitOnNl s → '\n' ∉ l := by
  intro s
  induction s with
  | nil =>
    intro l hl
    simp [splitOnNl] at hl
    simp [hl]
  | cons c cs ih =>
    intro l hl
    by_cases h : c = '\n'
    · rw [splitOnNl, if_pos h] at hl
      rcases List.mem_cons.mp hl with rfl | hmem
      · simp
      · exact ih l hmem
    · rw [splitOnNl, if_neg h] at hl
      rcases hm : splitOnNl cs with _ | ⟨m, ms⟩
      · exact absurd hm (splitOnNl_ne_nil cs)
      · rw [hm] at hl
        rcases List.mem_cons.mp hl with rfl | hmem
        · intro hc
          rcases List.mem_cons.mp hc with h1 | h2
          · exact h h1.symm
          · exact ih m (hm ▸ List.mem_cons_self m ms) h2
        · exact ih l (hm ▸ List.mem_cons_of_mem m hmem)

theorem splitOnNl_of_no_nl : ∀ l : Str, '\n' ∉ l → splitOnNl l = [l] := by
  intro l
  induction l with
  | nil => intro _; rfl
  | cons c cs ih =>
    intro h
    have hc : ¬ c = '\n' := by
      intro hc; exact h (by simp [hc])
    rw [splitOnNl, if_neg hc, ih (fun hm => h (List.mem_cons_of_mem c hm))]

theorem splitOnNl_append_nl : ∀ (l t : Str), '\n' ∉ l →
    splitOnNl (l ++ '\n' :: t) = l :: splitOnNl t := by
  intro l
  induction l with
  | nil => intro t _; simp [splitOnNl]
  | cons c cs ih =>
    intro t h
    have hc : ¬ c = '\n' := by
      intro hc; exact h (by simp [hc])
    rw [List.cons_append, splitOnNl, if_neg hc,
      ih t (fun hm => h (List.mem_cons_of_mem c hm))]

theorem splitOnNl_joinNl : ∀ ls : List Str, ls ≠ [] → (∀ l ∈ ls, '\n' ∉ l) →
    splitOnNl (joinNl ls) = ls := by
  intro ls
  induction ls with
  | nil => intro h; exact absurd rfl h
  | cons l ls ih =>
    intro _ hno
    cases ls with
    | nil => simpa [joinNl] using splitOnNl_of_no_nl l (hno l (by simp))
    | cons l2 ls2 =>
      rw [joinNl, splitOnNl_append_nl l _ (hno l (by simp)),
        ih (by simp) (fun x hx => hno x (List.mem_cons_of_mem l hx))]

theorem startsWithL_cons_head {p c : Char} {ps cs : Str}
    (h : startsWithL (p :: ps) (c :: cs) = true) : p = c := by
  simp only [startsWithL, Bool.and_eq_true] at h
  exact eq_of_beq h.1

theorem startsWithL_map (f : Char → Char) : ∀ (p s : Str),
    startsWithL p s = true → startsWithL (p.map f) (s.map f) = true := by
  intro p
  induction p with
  | nil => intro s _; rfl
  | cons a ps ih =>
    intro s h
    cases s with
    | nil => exact absurd h (by simp [startsWithL])
    | cons c cs =>
      simp only [startsWithL, Bool.and_eq_true] at h
      obtain ⟨h1, h2⟩ := h
      rw [List.map_cons, List.map_cons, startsWithL]
      simp only [Bool.and_eq_true]
      exact ⟨beq_of_eq (congrArg f (eq_of_beq h1)), ih cs h2⟩

theorem startsWithL_dash_false {t : Str} (ha : isAllowed t = true) :
    startsWithL "--".data t = false := by
  cases t with
  | nil => exact absurd ha (by decide)
  | cons c0 t1 =>
    by_cases hc : c0 = '-'
    · subst hc
      exfalso
      simp [isAllowed, allowedCmds] at ha
      rcases ha with h | h | h
      · exact absurd (startsWithL_cons_head h) (by decide)
      · exact absurd (startsWithL_cons_head h) (by decide)
      · exact absurd (startsWithL_cons_head h) (by decide)
    · rw [show "--".data = '-' :: ['-'] from rfl, startsWithL]
      have hb : ('-' == c0) = false := by
        simp
        exact fun hx => hc hx.symm
      simp [hb]

theorem keepLine_eq_some {a t : Str} (h : keepLine a = some t) :
    t = stripL a ∧ t ≠ [] ∧ isAllowed t = true := by
  simp only [keepLine] at h
  split_ifs at h with h1 h2 h3
  · injection h with ht
    subst ht
    exact ⟨rfl, h1, h3⟩

theorem keepLine_self {t : Str} (hne : t ≠ []) (hs : stripL t = t)
    (ha : isAllowed t = true) : keepLine t = some t := by
  have hd := startsWithL_dash_false ha
  simp only [keepLine, hs]
  rw [if_neg hne, if_neg (by simp [hd]), if_pos ha]

theorem mem_filterKeep {s l : Str} (h : l ∈ (splitOnNl s).filterMap keepLine) :
    l ≠ [] ∧ stripL l = l ∧ isAllowed l = true ∧ '\n' ∉ l := by
  obtain ⟨a, ha, hk⟩ := List.mem_filterMap.mp h
  obtain ⟨hl, hne, hall⟩ := keepLine_eq_some hk
  subst hl
  exact ⟨hne, stripL_stripL a, hall,
    fun hm => not_nl_of_mem_splitOnNl s a ha (mem_of_mem_stripL hm)⟩

theorem filterMap_keepLine_self : ∀ ls : List Str,
    (∀ t ∈ ls, keepLine t = some t) → ls.filterMap keepLine = ls := by
  intro ls
  induction ls with
  | nil => intro _; rfl
  | cons l ls ih =>
    intro h
    rw [List.filterMap_cons, h l (List.mem_cons_self l ls),
      ih (fun t ht => h t (List.mem_cons_of_mem l ht))]

/-- C3: every line retained by the filtering step is non-empty and its
upper-cased form starts with CREATE TABLE, INSERT INTO or CREATE INDEX; no
other line ever reaches the output, for every input. -/
theorem c3_output_lines_allowed : ∀ content : Str, ∀ l ∈ sqliteLines content,
    l ≠ [] ∧ isAllowed l = true := by
  intro content l hl
  unfold sqliteLines at hl
  have h := mem_filterKeep hl
  exact ⟨h.1, h.2.2.1⟩

/-- Witness for C3 at a concrete input and output line. -/
theorem c3_witness :
    ("CREATE TABLE t (x INTEGER);".data
        ∈ sqliteLines "CREATE TABLE t (x INTEGER);".data) ∧
    ("CREATE TABLE t (x INTEGER);".data ≠ ([] : Str) ∧
      isAllowed "CREATE TABLE t (x INTEGER);".data = true) :=
  ⟨by decide, c3_output_lines_allowed "CREATE TABLE t (x INTEGER);".data _ (by decide)⟩

/-- C9: every line written to the output is stripped of surrounding
whitespace (stripping it again changes nothing) and non-empty, for every
input. -/
theorem c9_output_lines_stripped : ∀ content : Str, ∀ l ∈ sqliteLines content,
    stripL l = l ∧ l ≠ [] := by
  intro content l hl
  unfold sqliteLines at hl
  have h := mem_filterKeep hl
  exact ⟨h.2.1, h.1⟩

/-- Witness for C9 at a concrete input with an indented line and blank
lines. -/
theorem c9_witness :
    ("CREATE TABLE t (x INTEGER);".data
        ∈ sqliteLines "   CREATE TABLE t (x INTEGER);  \n\n".data) ∧
    (stripL "CREATE TABLE t (x INTEGER);".data = "CREATE TABLE t (x INTEGER);".data ∧
      "CREATE TABLE t (x INTEGER);".data ≠ ([] : Str)) :=
  ⟨by decide, c9_output_lines_stripped "   CREATE TABLE t (x INTEGER);  \n\n".data _ (by decide)⟩

/-- C6: the allow-list filtering step (strip each line, drop empty and
`--`-prefixed lines, keep allow-listed lines, join with newlines) is
idempotent: applying it to its own output returns that output unchanged, for
every input string. -/
theorem c6_filter_idempotent : ∀ s : Str, filterStep (filterStep s) = filterStep s := by
  intro s
  rcases hls : (splitOnNl s).filterMap keepLine with _ | ⟨l, ls⟩
  · have h1 : filterStep s = [] := by rw [filterStep, hls]; rfl
    rw [h1]
    decide
  · have hmem : ∀ t ∈ l :: ls, keepLine t = some t ∧ '\n' ∉ t := by
      intro t ht
      have hprops := mem_filterKeep (s := s) (by rw [hls]; exact ht)
      exact ⟨keepLine_self hprops.1 hprops.2.1 hprops.2.2.1, hprops.2.2.2⟩
    have h1 : filterStep s = joinNl (l :: ls) := by rw [filterStep, hls]
    rw [h1, filterStep,
      splitOnNl_joinNl (l :: ls) (by simp) (fun x hx => (hmem x hx).2),
      filterMap_keepLine_self (l :: ls) (fun x hx => (hmem x hx).1)]

/-- C8: a line whose stripped form starts with lowercase `create table` is
kept by the filter (the keyword check is case-insensitive), and the kept line
is emitted verbatim as its stripped form, with character case unchanged. -/
theorem c8_lowercase_create_kept : ∀ l : Str,
    startsWithL "create table".data (stripL l) = true →
    keepLine l = some (stripL l) := by
  intro l h
  rcases hT : stripL l with _ | ⟨c0, t1⟩
  · rw [hT] at h
    exact absurd h (by decide)
  · rw [hT] at h
    have hup : startsWithL "CREATE TABLE".data ((c0 :: t1).map Char.toUpper) = true := by
      have hm := startsWithL_map Char.toUpper _ _ h
      rw [show ("create table".data.map Char.toUpper) = "CREATE TABLE".data from by decide] at hm
      exact hm
    have hall : isAllowed (c0 :: t1) = true := by
      simp [isAllowed, allowedCmds]
      exact Or.inl hup
    simp only [keepLine, hT]
    rw [if_neg (by simp : ¬(c0 :: t1 = [])),
      if_neg (by simp [startsWithL_dash_false hall]), if_pos hall]

/-- Witness for C8 at a concrete indented lowercase line. -/
theorem c8_witness :
    startsWithL "create table".data (stripL "  create table users (id int);".data) = true ∧
    keepLine "  create table users (id int);".data
      = some (stripL "  create table users (id int);".data) :=
  ⟨by decide, c8_lowercase_create_kept "  create table users (id int);".data (by decide)⟩

theorem ciDrop_head_ne {p c : Char} {ps : Str} (t : Str) (h : ¬ p.toUpper = c.toUpper) :
    ciDrop (p :: ps) (c :: t) = none := by
  simp [ciDrop, h]

theorem ciDrop_head_eq {p c : Char} {ps : Str} (t : Str) (h : p.toUpper = c.toUpper) :
    ciDrop (p :: ps) (c :: t) = ciDrop ps t := by
  simp [ciDrop, h]

theorem ciDrop_cons {p : Char} {ps : Str} {c : Char} {cs r : Str}
    (h : ciDrop (p :: ps) (c :: cs) = some r) :
    p.toUpper = c.toUpper ∧ ciDrop ps cs = some r := by
  simp only [ciDrop] at h
  split_ifs at h with hc
  · exact ⟨hc, h⟩

theorem ciDrop_length : ∀ (p s r : Str), ciDrop p s = some r →
    p.length + r.length = s.length := by
  intro p
  induction p with
  | nil =>
    intro s r h
    simp only [ciDrop, Option.some_inj] at h
    subst h
    simp
  | cons a ps ih =>
    intro s r h
    cases s with
    | nil => simp [ciDrop] at h
    | cons c cs =>
      obtain ⟨_, h2⟩ := ciDrop_cons h
      have := ih cs r h2
      simp only [List.length_cons]
      omega

theorem occursCI_cons (p : Str) (c : Char) (t : Str) :
    occursCI p (c :: t) = ((ciDrop p (c :: t)).isSome || occursCI p t) := rfl

theorem occursCI_here {p s : Str} (h : (ciDrop p s).isSome = true) :
    occursCI p s = true := by
  cases s with
  | nil => simpa [occursCI] using h
  | cons c cs => simp [occursCI_cons, h]

theorem occursCI_tail {p : Str} (c : Char) {cs : Str} (h : occursCI p cs = true) :
    occursCI p (c :: cs) = true := by
  simp [occursCI_cons, h]

theorem occursR_litRule (p repl : Str) : ∀ s : Str,
    occursR (litRule p repl) s = occursCI p s := by
  intro s
  induction s with
  | nil => simp [occursR, occursCI, litRule]
  | cons c cs ih => simp [occursR, occursCI, litRule, ih]

theorem subFuel_id (rule : Rule) : ∀ (n : Nat) (s : Str),
    occursR rule s = false → subFuel rule n s = s := by
  intro n
  induction n with
  | zero => intro s _; cases s <;> rfl
  | succ m ih =>
    intro s h
    cases s with
    | nil => rfl
    | cons c cs =>
      simp only [occursR] at h
      have h1 : rule (c :: cs) = none := by
        rcases hru : rule (c :: cs) with _ | x
        · rfl
        · rw [hru] at h; simp at h
      have h2 : occursR rule cs = false := by
        rw [h1] at h
        simpa using h
      simp only [subFuel, h1]
      rw [ih cs h2]

theorem big_implies_serial : ∀ s : Str,
    occursCI bigserialPat s = true → occursCI serialPat s = true := by
  intro s
  induction s with
  | nil => intro h; exact absurd h (by decide)
  | cons c cs ih =>
    intro h
    simp only [occursCI_cons, Bool.or_eq_true] at h
    rcases h with h1 | h2
    · obtain ⟨r, hr⟩ := Option.isSome_iff_exists.mp h1
      rw [show bigserialPat = 'B' :: 'I' :: 'G' :: serialPat from rfl] at hr
      have hr1 := (ciDrop_cons hr).2
      cases cs with
      | nil => simp [ciDrop] at hr1
      | cons c2 cs2 =>
        have hr2 := (ciDrop_cons hr1).2
        cases cs2 with
        | nil => simp [ciDrop] at hr2
        | cons c3 cs3 =>
          have hr3 := (ciDrop_cons hr2).2
          exact occursCI_tail c (occursCI_tail c2 (occursCI_tail c3
            (occursCI_here (by simp [hr3]))))
    · exact occursCI_tail c (ih h2)

theorem occursCI_serial_integer_append : ∀ X : Str,
    occursCI serialPat ("INTEGER".data ++ X) = occursCI serialPat X := by
  intro X
  have hstep : ∀ (c : Char) (t : Str), ¬ ('S' : Char).toUpper = c.toUpper →
      occursCI serialPat (c :: t) = occursCI serialPat t := by
    intro c t hc
    rw [occursCI_cons, show serialPat = 'S' :: "ERIAL".data from rfl,
      ciDrop_head_ne t hc]
    simp [show ('S' : Char) :: "ERIAL".data = serialPat from rfl]
  rw [show "INTEGER".data ++ X = 'I' :: 'N' :: 'T' :: 'E' :: 'G' :: 'E' :: 'R' ::X from rfl]
  rw [hstep 'I' ('N' :: 'T' :: 'E' :: 'G' :: 'E' :: 'R' ::X) (by decide),
    hstep 'N' ('T' :: 'E' :: 'G' :: 'E' :: 'R' ::X) (by decide),
    hstep 'T' ('E' :: 'G' :: 'E' :: 'R' ::X) (by decide),
    hstep 'E' ('G' :: 'E' :: 'R' ::X) (by decide),
    hstep 'G' ('E' :: 'R' ::X) (by decide),
    hstep 'E' ('R' ::X) (by decide),
    hstep 'R' X (by decide)]

/-- The proper tails of the pattern `SERIAL`, used as the strengthened
invariant of `serial_aux`: a pending partial match of `SERIAL` that was
impossible in the input stays impossible in the output. -/
def serialTails : List Str := ["ERIAL".data, "RIAL".data, "IAL".data, "AL".data, "L".data]

theorem serial_aux : ∀ (n : Nat) (s : Str), s.length ≤ n →
    occursCI serialPat (subFuel serialRule n s) = false ∧
    (∀ p ∈ serialTails, ciDrop p s = none → ciDrop p (subFuel serialRule n s) = none) := by
  intro n
  induction n with
  | zero =>
    intro s hs
    have hs0 : s = [] := List.eq_nil_of_length_eq_zero (Nat.le_zero.mp hs)
    subst hs0
    exact ⟨by decide, fun p _ h0 => h0⟩
  | succ m ih =>
    intro s hs
    cases s with
    | nil =>
      refine ⟨?_, fun p _ h0 => h0⟩
      show occursCI serialPat ([] : Str) = false
      decide
    | cons c cs =>
      have hcs : cs.length ≤ m := by
        rw [List.length_cons] at hs
        omega
      rcases hm : ciDrop serialPat (c :: cs) with _ | rest
      · have hsub : subFuel serialRule (Nat.succ m) (c :: cs)
            = c :: subFuel serialRule m cs := by
          simp only [subFuel]
          rw [show serialRule (c :: cs) = none by simp [serialRule, litRule, hm]]
        rw [hsub]
        obtain ⟨ihM, ihS⟩ := ih cs hcs
        constructor
        · rw [occursCI_cons]
          have hnone : ciDrop serialPat (c :: subFuel serialRule m cs) = none := by
            by_cases hc : ('S' : Char).toUpper = c.toUpper
            · rw [show serialPat = 'S' :: "ERIAL".data from rfl] at hm ⊢
              rw [ciDrop_head_eq _ hc] at hm
              rw [ciDrop_head_eq _ hc]
              exact ihS "ERIAL".data (by decide) hm
            · rw [show serialPat = 'S' :: "ERIAL".data from rfl]
              exact ciDrop_head_ne _ hc
          rw [hnone, ihM]
          rfl
        · intro p hp h0
          have hp5 : p = "ERIAL".data ∨ p = "RIAL".data ∨ p = "IAL".data ∨
              p = "AL".data ∨ p = "L".data := by
            simpa [serialTails] using hp
          rcases hp5 with rfl | rfl | rfl | rfl | rfl
          · by_cases hc : ('E' : Char).toUpper = c.toUpper
            · rw [show "ERIAL".data = 'E' :: "RIAL".data from rfl] at h0 ⊢
              rw [ciDrop_head_eq _ hc] at h0
              rw [ciDrop_head_eq _ hc]
              exact ihS "RIAL".data (by decide) h0
            · rw [show "ERIAL".data = 'E' :: "RIAL".data from rfl]
              exact ciDrop_head_ne _ hc
          · by_cases hc : ('R' : Char).toUpper = c.toUpper
            · rw [show "RIAL".data = 'R' :: "IAL".data from rfl] at h0 ⊢
              rw [ciDrop_head_eq _ hc] at h0
              rw [ciDrop_head_eq _ hc]
              exact ihS "IAL".data (by decide) h0
            · rw [show "RIAL".data = 'R' :: "IAL".data from rfl]
              exact ciDrop_head_ne _ hc
          · by_cases hc : ('I' : Char).toUpper = c.toUpper
            · rw [show "IAL".data = 'I' :: "AL".data from rfl] at h0 ⊢
              rw [ciDrop_head_eq _ hc] at h0
              rw [ciDrop_head_eq _ hc]
              exact ihS "AL".data (by decide) h0
            · rw [show "IAL".data = 'I' :: "AL".data from rfl]
              exact ciDrop_head_ne _ hc
          · by_cases hc : ('A' : Char).toUpper = c.toUpper
            · rw [show "AL".data = 'A' :: "L".data from rfl] at h0 ⊢
              rw [ciDrop_head_eq _ hc] at h0
              rw [ciDrop_head_eq _ hc]
              exact ihS "L".data (by decide) h0
            · rw [show "AL".data = 'A' :: "L".data from rfl]
              exact ciDrop_head_ne _ hc
          · by_cases hc : ('L' : Char).toUpper = c.toUpper
            · rw [show "L".data = 'L' :: ([] : Str) from rfl] at h0
              rw [ciDrop_head_eq _ hc] at h0
              exact absurd h0 (by simp [ciDrop])
            · rw [show "L".data = 'L' :: ([] : Str) from rfl]
              exact ciDrop_head_ne _ hc
      · have hlen := ciDrop_length serialPat (c :: cs) rest hm
        have hrest : rest.length ≤ cs.length := by
          rw [show serialPat.length = 6 from rfl, List.length_cons] at hlen
          omega
        have hsub : subFuel serialRule (Nat.succ m) (c :: cs)
            = "INTEGER".data ++ subFuel serialRule m rest := by
          simp only [subFuel]
          rw [show serialRule (c :: cs) = some ("INTEGER".data, rest) by
            simp [serialRule, litRule, hm]]
          simp [hrest]
        rw [hsub]
        obtain ⟨ihM, _⟩ := ih rest (le_trans hrest hcs)
        constructor
        · rw [occursCI_serial_integer_append]
          exact ihM
        · intro p hp _
          have hp5 : p = "ERIAL".data ∨ p = "RIAL".data ∨ p = "IAL".data ∨
              p = "AL".data ∨ p = "L".data := by
            simpa [serialTails] using hp
          rcases hp5 with rfl | rfl | rfl | rfl | rfl
          · rw [show "INTEGER".data ++ subFuel serialRule m rest
                = 'I' :: ('N' :: 'T' :: 'E' :: 'G' :: 'E' :: 'R' ::subFuel serialRule m rest) from rfl,
              show "ERIAL".data = 'E' :: "RIAL".data from rfl]
            exact ciDrop_head_ne _ (by decide)
          · rw [show "INTEGER".data ++ subFuel serialRule m rest
                = 'I' :: ('N' :: 'T' :: 'E' :: 'G' :: 'E' :: 'R' ::subFuel serialRule m rest) from rfl,
              show "RIAL".data = 'R' :: "IAL".data from rfl]
            exact ciDrop_head_ne _ (by decide)
          · rw [show "INTEGER".data ++ subFuel serialRule m rest
                = 'I' :: 'N' :: ('T' :: 'E' :: 'G' :: 'E' :: 'R' ::subFuel serialRule m rest) from rfl,
              show "IAL".data = 'I' :: "AL".data from rfl]
            rw [ciDrop_head_eq _ (by decide),
              show "AL".data = 'A' :: "L".data from rfl]
            exact ciDrop_head_ne _ (by decide)
          · rw [show "INTEGER".data ++ subFuel serialRule m rest
                = 'I' :: ('N' :: 'T' :: 'E' :: 'G' :: 'E' :: 'R' ::subFuel serialRule m rest) from rfl,
              show "AL".data = 'A' :: "L".data from rfl]
            exact ciDrop_head_ne _ (by decide)
          · rw [show "INTEGER".data ++ subFuel serialRule m rest
                = 'I' :: ('N' :: 'T' :: 'E' :: 'G' :: 'E' :: 'R' ::subFuel serialRule m rest) from rfl,
              show "L".data = 'L' :: ([] : Str) from rfl]
            exact ciDrop_head_ne _ (by decide)

theorem serial_no_occurrence : ∀ s : Str,
    occursCI serialPat (reSub serialRule s) = false := by
  intro s
  exact (serial_aux s.length s le_rfl).1

theorem bigserial_noop_after_serial : ∀ s : Str,
    reSub bigserialRule (reSub serialRule s) = reSub serialRule s := by
  intro s
  rw [reSub]
  apply subFuel_id
  have h := occursR_litRule bigserialPat "INTEGER".data (reSub serialRule s)
  rw [show litRule bigserialPat "INTEGER".data = bigserialRule from rfl] at h
  rw [h]
  by_contra hb
  rw [Bool.not_eq_false] at hb
  have hser := big_implies_serial _ hb
  rw [serial_no_occurrence s] at hser
  exact Bool.noConfusion hser

/-- C1 counterexample: the input `-- BIGSERIAL\n` contains the token
BIGSERIAL, yet after all substitutions the content is empty — the comment
rule deleted the occurrence before any type rule ran — so the occurrence does
not read BIGINTEGER; the universal claim over every input fails. -/
theorem c1_counterexample :
    occursCI bigserialPat "-- BIGSERIAL\n".data = true ∧
    applyConversions "-- BIGSERIAL\n".data = [] ∧
    occursCI "BIGINTEGER".data (applyConversions "-- BIGSERIAL\n".data) = false := by
  exact ⟨by decide, by decide, by decide⟩

/-- C1 amended: the bare SERIAL rule precedes the BIGSERIAL rule and matches
SERIAL as a substring of BIGSERIAL: after the bare SERIAL rule runs, no
case-insensitive occurrence of SERIAL remains anywhere in the content, so the
dedicated BIGSERIAL rule finds nothing left to match and leaves the content
unchanged; a BIGSERIAL occurrence that survives the earlier stripping rules
is rewritten to BIGINTEGER (not INTEGER), as on the concrete content
`CREATE TABLE t (a BIGSERIAL);`. -/
theorem c1_amended :
    (∀ s : Str, occursCI serialPat (reSub serialRule s) = false) ∧
    (∀ s : Str, reSub bigserialRule (reSub serialRule s) = reSub serialRule s) ∧
    applyConversions "CREATE TABLE t (a BIGSERIAL);".data
      = "CREATE TABLE t (a BIGINTEGER);".data :=
  ⟨serial_no_occurrence, bigserial_noop_after_serial, by decide⟩

/-- Witness for C4 at a concrete invocation. -/
theorem c4_witness :
    (runMain ["p".data, "i".data, "o".data] none true).exitCode ≠ 0 ∧
    (runMain ["p".data, "i".data, "o".data] none true).writtenOutput = none :=
  c4_missing_input_no_output ["p".data, "i".data, "o".data] true

/-- Witness for C6 at a concrete input. -/
theorem c6_witness :
    filterStep (filterStep "noise\n  CREATE TABLE t (x INTEGER);\n".data)
      = filterStep "noise\n  CREATE TABLE t (x INTEGER);\n".data :=
  c6_filter_idempotent "noise\n  CREATE TABLE t (x INTEGER);\n".data

/-- Witness for the two universally quantified parts of the amended C1 at a
concrete content. -/
theorem c1_amended_witness :
    occursCI serialPat (reSub serialRule "x Serial bigserial y".data) = false ∧
    reSub bigserialRule (reSub serialRule "x Serial bigserial y".data)
      = reSub serialRule "x Serial bigserial y".data :=
  ⟨c1_amended.1 "x Serial bigserial y".data, c1_amended.2.1 "x Serial bigserial y".data⟩
